import Mathlib

/-!
Verification development for the falling-sand grid simulation in
`src/main.rs`.  The simulation core (coordinate scheme, double-buffered
grid, movement rule table, tick engine) is shallowly embedded below.

Machine-integer semantics: `usize` arithmetic is modelled on `Nat` with
explicit wrap at `2 ^ 64` (release-profile wrapping semantics), `i64`
casts go through `Int` with explicit two's-complement wrap, and every
array access that can panic in Rust (out-of-range slice indexing,
`Option::unwrap`, the `unreachable!()` arm) is modelled by `Option`,
where `none` is a panic/abort.
-/

set_option maxRecDepth 8000

namespace SandGame

/-- Modulus of Rust `usize` (64-bit build). -/
def USIZE : Nat := 2 ^ 64

/-- Source constant: `const ARR_WIDTH: usize = 320/2;`. -/
def ARR_WIDTH : Nat := 320 / 2

/-- Source constant: `const ARR_HEIGHT: usize = 240/2;`. -/
def ARR_HEIGHT : Nat := 240 / 2

/-- Length of the cell array, `ARR_WIDTH * ARR_HEIGHT` (the Rust array
type `[Option<Element>; ARR_WIDTH * ARR_HEIGHT]` fixes this length
statically). -/
def WH : Nat := ARR_WIDTH * ARR_HEIGHT

theorem ARR_WIDTH_eq : ARR_WIDTH = 160 := rfl

theorem ARR_HEIGHT_eq : ARR_HEIGHT = 120 := rfl

theorem WH_eq : WH = 19200 := rfl

theorem USIZE_eq : USIZE = 18446744073709551616 := by norm_num [USIZE]

/-- Wrapping `usize` addition (release-profile `+`). -/
def uadd (a b : Nat) : Nat := (a + b) % USIZE

/-- Wrapping `usize` multiplication (release-profile `*`). -/
def umul (a b : Nat) : Nat := (a * b) % USIZE

/-- Wrapping `usize` subtraction (release-profile `-`): `a - b` modulo
`2 ^ 64`. -/
def usub (a b : Nat) : Nat := (a + (USIZE - b % USIZE)) % USIZE

/-- Rust `x as i64` applied to a `usize` value `x < 2 ^ 64`. -/
def i64OfUsize (n : Nat) : Int := if n < 2 ^ 63 then (n : Int) else (n : Int) - (USIZE : Int)

/-- Wrapping `i64` arithmetic result normalisation (two's complement). -/
def wrapI64 (i : Int) : Int := (i + 2 ^ 63) % (USIZE : Int) - 2 ^ 63

/-- Rust `v as usize` applied to an `i64` value: reduce modulo `2 ^ 64`
into `[0, 2 ^ 64)`. -/
def usizeOfI64 (i : Int) : Nat := (i % (USIZE : Int)).toNat

/-- Source `struct NegCoordinate { x: i64, y: i64 }`. -/
structure NegCoordinate where
  x : Int
  y : Int
deriving DecidableEq, Repr

/-- Source `struct Coordinate { x: usize, y: usize }`. -/
structure Coordinate where
  x : Nat
  y : Nat
deriving DecidableEq, Repr

/-- Source `Coordinate::in_bounds`.  The source also tests `self.x < 0`
and `self.y < 0`, which are vacuously false for `usize` and are dropped
here. -/
def Coordinate.in_bounds (c : Coordinate) : Bool :=
  if ARR_WIDTH ≤ c.x then false
  else if ARR_HEIGHT ≤ c.y then false
  else true

/-- Source `impl From<Coordinate> for usize`: `c.x + c.y * ARR_WIDTH`
with `usize` (wrapping) arithmetic. -/
def toLinearIndex (c : Coordinate) : Nat := uadd c.x (umul c.y ARR_WIDTH)

/-- Source `impl From<usize> for Coordinate`:
`Coordinate { x: i % ARR_WIDTH, y: i / ARR_WIDTH }`. -/
def fromLinearIndex (i : Nat) : Coordinate := ⟨i % ARR_WIDTH, i / ARR_WIDTH⟩

/-- Source `impl Add<NegCoordinate> for Coordinate`:
`(self.x as i64 + other.x) as usize` componentwise, with wrapping casts
made explicit. -/
def Coordinate.addNeg (c : Coordinate) (o : NegCoordinate) : Coordinate :=
  ⟨usizeOfI64 (wrapI64 (i64OfUsize c.x + o.x)),
   usizeOfI64 (wrapI64 (i64OfUsize c.y + o.y))⟩

/-- The sequence of coordinates yielded by `CoordinateIterator` when its
`count` field currently holds `n`: each `next()` call first decrements
`count`, then yields `Coordinate::from(count)` if `count > 0` and `None`
otherwise (at which point the `for` loop stops, so `count` is never
decremented below zero). -/
def coordIterAux : Nat → List Coordinate
  | 0 => []
  | c + 1 => if 0 < c then fromLinearIndex c :: coordIterAux c else []

/-- The full list of coordinates visited by
`for index in CoordinateIterator::new()`:
`CoordinateIterator::new` starts `count` at `ARR_HEIGHT*ARR_WIDTH - 2`. -/
def coordinateIteratorList : List Coordinate :=
  coordIterAux (ARR_HEIGHT * ARR_WIDTH - 2)

/-- Source `enum ElementType`. -/
inductive ElementType
  | EMPTY
  | Stone
  | Sand
  | Water
deriving DecidableEq, Repr

/-- Source `struct Element { position: Coordinate, flavor: ElementType }`. -/
structure Element where
  position : Coordinate
  flavor : ElementType
deriving DecidableEq, Repr

/-- Source `struct Move`; the `EnumSet<ElementType>` filter is embedded
as the list of its members (membership tested with `contains`). -/
structure Move where
  flavors : List ElementType
  directions : List NegCoordinate
deriving DecidableEq, Repr

/-- Source `element_type_to_moveset`.  The `ElementType::EMPTY` arm is
`unreachable!()`, which aborts; that panic is modelled as `none`. -/
def element_type_to_moveset : ElementType → Option (List Move)
  | ElementType.Stone => some []
  | ElementType.Sand => some
      [⟨[ElementType.EMPTY, ElementType.Water], [⟨0, 2⟩]⟩,
       ⟨[ElementType.EMPTY, ElementType.Water], [⟨0, 1⟩]⟩,
       ⟨[ElementType.EMPTY, ElementType.Water], [⟨1, 1⟩, ⟨-1, 1⟩]⟩]
  | ElementType.Water => some
      [⟨[ElementType.EMPTY], [⟨0, 1⟩]⟩,
       ⟨[ElementType.EMPTY], [⟨-1, 1⟩, ⟨1, 1⟩]⟩,
       ⟨[ElementType.EMPTY], [⟨-2, 0⟩, ⟨2, 0⟩]⟩,
       ⟨[ElementType.EMPTY], [⟨-1, 0⟩, ⟨1, 0⟩]⟩,
       ⟨[ElementType.Sand], [⟨0, -1⟩]⟩]
  | ElementType.EMPTY => none

/-- Source `struct Matrix { arr: [Option<Element>; ARR_WIDTH*ARR_HEIGHT] }`;
the fixed array length of the Rust array type is carried as `hlen`. -/
structure Matrix where
  arr : List (Option Element)
  hlen : arr.length = WH

/-- Source `Matrix::new()`: all cells hold `None` (`EMPTY`). -/
def Matrix.new : Matrix := ⟨List.replicate WH none, by simp⟩

/-- Rust `self.arr[i] = v` (via `IndexMut`): panics (`none`) when the
linear index is outside the array. -/
def Matrix.setCell (m : Matrix) (i : Nat) (v : Option Element) : Option Matrix :=
  if i < WH then some ⟨m.arr.set i v, by simp [m.hlen]⟩ else none

/-- Source `Matrix::swap`: `self.arr.swap(a.into(), b.into())`, which
panics (`none`) when either linear index is outside the array. -/
def Matrix.swap (m : Matrix) (a b : Coordinate) : Option Matrix :=
  match m.arr[toLinearIndex a]?, m.arr[toLinearIndex b]? with
  | some va, some vb =>
      some ⟨(m.arr.set (toLinearIndex a) vb).set (toLinearIndex b) va, by simp [m.hlen]⟩
  | _, _ => none

/-- Number of cells of the grid holding a particle of flavor `t`; the
collection of these counts over all `t` is the multiset of particle
types present in the grid. -/
def Matrix.countFlavor (m : Matrix) (t : ElementType) : Nat :=
  m.arr.countP (fun cell =>
    match cell with
    | some e => e.flavor == t
    | none => false)

/-- Source `struct ElementMatrix`: `arr` is the committed grid, `new_arr`
the working grid. -/
structure ElementMatrix where
  arr : Matrix
  new_arr : Matrix

/-- Source `ElementMatrix::new()`. -/
def ElementMatrix.new : ElementMatrix := ⟨Matrix.new, Matrix.new⟩

/-- Source `ElementMatrix::add`: writes `Some(element)` into the working
grid at the element's own position, with no bounds check before the
array write (so the write panics when the linear index is out of
range). -/
def ElementMatrix.add (m : ElementMatrix) (element : Element) : Option ElementMatrix :=
  (m.new_arr.setCell (toLinearIndex element.position) (some element)).map
    (fun na => { m with new_arr := na })

/-- Rust `usize::div_ceil`. -/
def div_ceil (a b : Nat) : Nat := a / b + if a % b == 0 then 0 else 1

/-- Rust range `lo..hi` over `usize`, as the list of its elements
(empty when `hi ≤ lo`). -/
def rustRange (lo hi : Nat) : List Nat := (List.range (hi - lo)).map (fun k => lo + k)

/-- Source `ElementMatrix::add_square` (the `paint_square` operation):
`offset_x` ranges over `coord.x - div_ceil(size,2) .. coord.x + size/2`
(wrapping `usize` arithmetic), likewise `offset_y`, and each written
element's position is `(coord.x + offset_x, coord.y + offset_y)` - note
the center is added a second time on top of the already-absolute loop
variable, exactly as in the source. -/
def ElementMatrix.add_square (m : ElementMatrix) (coord : Coordinate) (size : Nat)
    (flavor : ElementType) : Option ElementMatrix :=
  (rustRange (usub coord.x (div_ceil size 2)) (uadd coord.x (size / 2))).foldlM
    (fun m1 offset_x =>
      (rustRange (usub coord.y (div_ceil size 2)) (uadd coord.y (size / 2))).foldlM
        (fun m2 offset_y =>
          m2.add ⟨⟨uadd coord.x offset_x, uadd coord.y offset_y⟩, flavor⟩)
        m1)
    m

/-- Source `ElementMatrix::get_from_new`.  Result layers: outer `none`
models a panic of the unchecked array indexing (provably unreachable
because `in_bounds` implies the linear index is in range); `some none`
is the source's `None` (out of bounds); `some (some cell)` is the
source's `Some(&cell)`. -/
def ElementMatrix.get_from_new (m : ElementMatrix) (index : Coordinate) :
    Option (Option (Option Element)) :=
  if index.in_bounds then (m.new_arr.arr[toLinearIndex index]?).map some
  else some none

/-- Source `ElementMatrix::move_to`: swap in the working grid, guarded
by a bounds check on the destination only. -/
def ElementMatrix.move_to (m : ElementMatrix) (a b : Coordinate) : Option ElementMatrix :=
  if b.in_bounds then (m.new_arr.swap a b).map (fun na => { m with new_arr := na })
  else some m

/-- Rust `slice::choose`: pick one element of the slice using the next
random value `r` (`none` exactly when the slice is empty, in which case
the source's `.unwrap()` panics). -/
def choose {α : Type} (l : List α) (r : Nat) : Option α := l[r % l.length]?

/-- Source `ElementMatrix::attempt_directions`.  Randomness is supplied
as an oracle `rng` consulted at an incrementing counter `k`, one draw
per rule evaluated (the source draws from `thread_rng` once per loop
iteration).  `none` models a panic (empty direction list, or an
unchecked array access out of range). -/
def ElementMatrix.attempt_directions (m : ElementMatrix) (rng : Nat → Nat) (k : Nat)
    (a : Coordinate) : List Move → Option (ElementMatrix × Nat)
  | [] => some (m, k)
  | mv :: rest =>
    match choose mv.directions (rng k) with
    | none => none
    | some d =>
      match m.get_from_new (a.addNeg d) with
      | none => none
      | some none => m.attempt_directions rng (k + 1) a rest
      | some (some (some new_element)) =>
        if mv.flavors.contains new_element.flavor then
          (m.move_to a (a.addNeg d)).map (fun m2 => (m2, k + 1))
        else m.attempt_directions rng (k + 1) a rest
      | some (some none) =>
        if mv.flavors.contains ElementType.EMPTY then
          (m.move_to a (a.addNeg d)).map (fun m2 => (m2, k + 1))
        else m.attempt_directions rng (k + 1) a rest

/-- Source `ElementMatrix::step`: read the committed grid at `a`
(unchecked array indexing, `none` on out-of-range panic), and if a
particle is present, evaluate its moveset. -/
def ElementMatrix.step (m : ElementMatrix) (rng : Nat → Nat) (k : Nat) (a : Coordinate) :
    Option (ElementMatrix × Nat) :=
  match m.arr.arr[toLinearIndex a]? with
  | none => none
  | some none => some (m, k)
  | some (some element) =>
    match element_type_to_moveset element.flavor with
    | none => none
    | some moves => m.attempt_directions rng k a moves

/-- Source `ElementMatrix::finish_update`.  The unsafe block swaps the
two buffers through raw pointers and then assigns `*a = *b.clone()`
with `a` aimed at `new_arr` and `b` at `arr`; after the pointer swap
`arr` holds the old working grid, and the assignment copies that value
back into `new_arr`.  Net effect: both buffers hold the old working
grid. -/
def ElementMatrix.finish_update (m : ElementMatrix) : ElementMatrix :=
  { arr := m.new_arr, new_arr := m.new_arr }

/-- One iteration of the tick loop body, on the grid-and-rng-counter
state. -/
def stepFold (rng : Nat → Nat) (p : ElementMatrix × Nat) (a : Coordinate) :
    Option (ElementMatrix × Nat) :=
  ElementMatrix.step p.1 rng p.2 a

/-- One simulation tick as performed by `GameState::update` on a tick
boundary: step every coordinate yielded by `CoordinateIterator`, then
`finish_update`. -/
def ElementMatrix.runTick (m : ElementMatrix) (rng : Nat → Nat) : Option ElementMatrix :=
  (coordinateIteratorList.foldlM (stepFold rng) (m, 0)).map (fun p => p.1.finish_update)

/-- A grid contains no cell occupied by an `EMPTY`-flavored element
(true of every state the program can construct: painting only writes
`Sand`, `Water`, `Stone`). -/
def NoEmptyEl (m : Matrix) : Prop :=
  ∀ (i : Nat) (e : Element), m.arr[i]? = some (some e) → e.flavor ≠ ElementType.EMPTY

/-- The cell lookup result holds a Stone particle. -/
def stoneOpt (x : Option (Option Element)) : Prop :=
  ∃ e, x = some (some e) ∧ e.flavor = ElementType.Stone

/-- Between the committed grid `A` and a working grid `B`, every cell at
which either side holds Stone is untouched (both sides agree there). -/
def StoneAgree (A B : Matrix) : Prop :=
  ∀ (i : Nat), stoneOpt A.arr[i]? ∨ stoneOpt B.arr[i]? → B.arr[i]? = A.arr[i]?

theorem in_bounds_iff (c : Coordinate) :
    c.in_bounds = true ↔ c.x < ARR_WIDTH ∧ c.y < ARR_HEIGHT := by
  unfold Coordinate.in_bounds
  split_ifs <;> simp <;> omega

theorem toLinearIndex_small (c : Coordinate) (hx : c.x < ARR_WIDTH) (hy : c.y < ARR_HEIGHT) :
    toLinearIndex c = c.x + c.y * ARR_WIDTH := by
  unfold toLinearIndex uadd umul
  rw [ARR_WIDTH_eq] at *
  rw [ARR_HEIGHT_eq] at hy
  rw [USIZE_eq]
  omega

theorem toLinearIndex_lt (c : Coordinate) (h : c.in_bounds = true) : toLinearIndex c < WH := by
  rcases (in_bounds_iff c).1 h with ⟨hx, hy⟩
  rw [toLinearIndex_small c hx hy, WH_eq]
  rw [ARR_WIDTH_eq] at *
  rw [ARR_HEIGHT_eq] at hy
  omega

theorem to_from_linear (i : Nat) (h : i < USIZE) : toLinearIndex (fromLinearIndex i) = i := by
  unfold toLinearIndex fromLinearIndex uadd umul
  rw [ARR_WIDTH_eq, USIZE_eq] at *
  simp only
  omega

/-- C9: for every in-bounds coordinate `c`, converting to the linear
index `x + y*ARR_WIDTH` and back yields `c` again. -/
theorem from_to_linear_roundtrip (c : Coordinate) (h : c.in_bounds = true) :
    fromLinearIndex (toLinearIndex c) = c := by
  rcases (in_bounds_iff c).1 h with ⟨hx, hy⟩
  obtain ⟨x, y⟩ := c
  simp only at hx hy
  rw [toLinearIndex_small ⟨x, y⟩ hx hy]
  unfold fromLinearIndex
  rw [ARR_WIDTH_eq] at *
  rw [ARR_HEIGHT_eq] at hy
  simp only [Coordinate.mk.injEq]
  constructor <;> omega

theorem from_to_linear_roundtrip_witness :
    (Coordinate.mk 3 4).in_bounds = true ∧
      fromLinearIndex (toLinearIndex ⟨3, 4⟩) = ⟨3, 4⟩ :=
  ⟨by decide, from_to_linear_roundtrip ⟨3, 4⟩ (by decide)⟩

/-- C2: after `finish_update`, the committed grid holds exactly the
content the working grid had at the end of the tick, and the committed
and working grids are identical. -/
theorem finish_update_commits (m : ElementMatrix) :
    (m.finish_update).arr = m.new_arr ∧
      (m.finish_update).new_arr = (m.finish_update).arr :=
  ⟨rfl, rfl⟩

theorem coordIterAux_map (n : Nat) (hn : n ≤ WH) :
    (coordIterAux n).map toLinearIndex = (List.range' 1 (n - 1)).reverse := by
  induction n with
  | zero => simp [coordIterAux]
  | succ c ih =>
    rw [coordIterAux]
    by_cases hc : 0 < c
    · rw [if_pos hc]
      have hrange : List.range' 1 (c + 1 - 1) = List.range' 1 (c - 1) ++ [c] := by
        have h1 : c + 1 - 1 = (c - 1) + 1 := by omega
        rw [h1, List.range'_concat]
        have h2 : 1 + 1 * (c - 1) = c := by omega
        rw [h2]
      rw [hrange]
      simp only [List.map_cons, List.reverse_append, List.reverse_singleton,
        List.singleton_append, List.cons.injEq]
      constructor
      · apply to_from_linear
        rw [USIZE_eq]; rw [WH_eq] at hn; omega
      · exact ih (by omega)
    · rw [if_neg hc]
      have : c = 0 := by omega
      subst this
      simp

theorem coordIterAux_length (n : Nat) (hn : n ≤ WH) : (coordIterAux n).length = n - 1 := by
  have h := congrArg List.length (coordIterAux_map n hn)
  simpa using h

/-- C1 (code evidence): the coordinate iterator visits linear indices
19197 down to 1 only; cells 0 (coordinate (0,0)), 19198 (coordinate
(158,119)) and 19199 (coordinate (159,119)) are never visited, so the
grid is not fully enumerated. -/
theorem coordinate_iterator_misses_cells :
    coordinateIteratorList.map toLinearIndex = (List.range' 1 19197).reverse ∧
      coordinateIteratorList.length = 19197 ∧
      Coordinate.mk 0 0 ∉ coordinateIteratorList ∧
      Coordinate.mk 158 119 ∉ coordinateIteratorList ∧
      Coordinate.mk 159 119 ∉ coordinateIteratorList := by
  have hstart : ARR_HEIGHT * ARR_WIDTH - 2 = 19198 := by norm_num [ARR_HEIGHT, ARR_WIDTH]
  have hmap : coordinateIteratorList.map toLinearIndex = (List.range' 1 19197).reverse := by
    unfold coordinateIteratorList
    rw [hstart]
    exact coordIterAux_map 19198 (by rw [WH_eq]; omega)
  have hnot : ∀ c : Coordinate, ¬(1 ≤ toLinearIndex c ∧ toLinearIndex c ≤ 19197) →
      c ∉ coordinateIteratorList := by
    intro c hc hmem
    have h1 : toLinearIndex c ∈ coordinateIteratorList.map toLinearIndex :=
      List.mem_map_of_mem _ hmem
    rw [hmap, List.mem_reverse, List.mem_range'] at h1
    rcases h1 with ⟨i, hi, hEq⟩
    exact hc ⟨by omega, by omega⟩
  refine ⟨hmap, ?_, ?_, ?_, ?_⟩
  · unfold coordinateIteratorList
    rw [hstart]
    rw [coordIterAux_length 19198 (by rw [WH_eq]; omega)]
  · exact hnot _ (by decide)
  · exact hnot _ (by decide)
  · exact hnot _ (by decide)

/-- C3 (code evidence): `add_square` centered at (159,119) with size 5
panics with an out-of-range array write (modelled `none`), and centered
at (0,0) with size 5 the `usize` subtraction wraps, the loop range is
empty, and nothing at all is written (rather than the in-bounds subset
of the square). -/
theorem add_square_panics_at_edge :
    ElementMatrix.new.add_square ⟨159, 119⟩ 5 ElementType.Sand = none ∧
      ElementMatrix.new.add_square ⟨0, 0⟩ 5 ElementType.Sand = some ElementMatrix.new := by
  constructor
  · rfl
  · rfl

/-- C4 (code evidence): painting size 5 at in-bounds center (10,10)
leaves the claimed cell (7,7) untouched and instead writes the doubled
square, e.g. cell (17,17). -/
theorem add_square_offsets_center_twice :
    (ElementMatrix.new.add_square ⟨10, 10⟩ 5 ElementType.Sand).map
        (fun m => (m.new_arr.arr[toLinearIndex ⟨7, 7⟩]?,
                   m.new_arr.arr[toLinearIndex ⟨17, 17⟩]?)) =
      some (some none, some (some ⟨⟨17, 17⟩, ElementType.Sand⟩)) := by
  have hr : rustRange (usub 10 (div_ceil 5 2)) (uadd 10 (5 / 2)) = [7, 8, 9, 10, 11] := by
    decide
  unfold ElementMatrix.add_square
  rw [hr]
  simp only [List.foldlM_cons, List.foldlM_nil, ElementMatrix.add, Matrix.setCell,
    ElementMatrix.new, Matrix.new, toLinearIndex, uadd, umul, USIZE, WH, ARR_WIDTH, ARR_HEIGHT]
  norm_num [List.getElem?_set, List.getElem?_replicate]

/-- The single sand element used in the stale-position demonstration. -/
def c5Sand : Element := ⟨⟨1, 1⟩, ElementType.Sand⟩

/-- C5 (code evidence): a `move_to` swap relocates the element value
without updating its `position` field, so the cell (1,2) ends up holding
an element whose stored position is still (1,1). -/
theorem move_leaves_stale_position :
    ((ElementMatrix.new.add c5Sand).bind
          (fun m => m.move_to ⟨1, 1⟩ ⟨1, 2⟩)).map
        (fun m => m.new_arr.arr[toLinearIndex ⟨1, 2⟩]?) =
      some (some (some c5Sand)) ∧ c5Sand.position ≠ ⟨1, 2⟩ := by
  constructor
  · simp only [ElementMatrix.add, Matrix.setCell, ElementMatrix.move_to, Matrix.swap,
      ElementMatrix.new, Matrix.new, c5Sand, Coordinate.in_bounds,
      toLinearIndex, uadd, umul, USIZE, WH, ARR_WIDTH, ARR_HEIGHT]
    norm_num [List.getElem?_set, List.getElem?_replicate]
  · decide

theorem Matrix.cell_defined (m : Matrix) (i : Nat) (h : i < WH) : ∃ v, m.arr[i]? = some v := by
  have hlt : i < m.arr.length := by rw [m.hlen]; exact h
  exact ⟨m.arr[i], List.getElem?_eq_getElem hlt⟩

theorem get_from_new_total (m : ElementMatrix) (c : Coordinate) :
    ∃ v, m.get_from_new c = some v := by
  unfold ElementMatrix.get_from_new
  by_cases h : c.in_bounds = true
  · rw [if_pos h]
    rcases m.new_arr.cell_defined (toLinearIndex c) (toLinearIndex_lt c h) with ⟨v, hv⟩
    exact ⟨some v, by rw [hv]; rfl⟩
  · rw [if_neg h]
    exact ⟨none, rfl⟩

theorem get_from_new_inner (m : ElementMatrix) (c : Coordinate) (cell : Option Element)
    (h : m.get_from_new c = some (some cell)) :
    c.in_bounds = true ∧ m.new_arr.arr[toLinearIndex c]? = some cell := by
  unfold ElementMatrix.get_from_new at h
  by_cases hb : c.in_bounds = true
  · rw [if_pos hb] at h
    refine ⟨hb, ?_⟩
    rcases m.new_arr.cell_defined (toLinearIndex c) (toLinearIndex_lt c hb) with ⟨v, hv⟩
    rw [hv] at h
    simp only [Option.map_some', Option.some.injEq] at h
    rw [hv, h]
  · rw [if_neg hb] at h
    exact Option.noConfusion (Option.some.inj h)

theorem Matrix.swap_spec (m : Matrix) (a b : Coordinate)
    (ha : toLinearIndex a < WH) (hb : toLinearIndex b < WH) :
    ∃ va vb B, m.arr[toLinearIndex a]? = some va ∧ m.arr[toLinearIndex b]? = some vb ∧
      m.swap a b = some B ∧
      B.arr[toLinearIndex b]? = some va ∧
      (toLinearIndex a = toLinearIndex b → va = vb) ∧
      (toLinearIndex a ≠ toLinearIndex b → B.arr[toLinearIndex a]? = some vb) ∧
      ∀ i : Nat, i ≠ toLinearIndex a → i ≠ toLinearIndex b → B.arr[i]? = m.arr[i]? := by
  rcases m.cell_defined (toLinearIndex a) ha with ⟨va, hva⟩
  rcases m.cell_defined (toLinearIndex b) hb with ⟨vb, hvb⟩
  have hswap : m.swap a b =
      some ⟨(m.arr.set (toLinearIndex a) vb).set (toLinearIndex b) va, by simp [m.hlen]⟩ := by
    unfold Matrix.swap
    rw [hva, hvb]
  refine ⟨va, vb, _, hva, hvb, hswap, ?_, ?_, ?_, ?_⟩
  · have hlt : toLinearIndex b < ((m.arr.set (toLinearIndex a) vb)).length := by
      simp [m.hlen]; exact hb
    exact List.getElem?_set_self hlt
  · intro hEq
    rw [hEq, hvb] at hva
    exact (Option.some.inj hva).symm
  · intro hne
    rw [List.getElem?_set_ne (fun hEq => hne hEq.symm)]
    have hlt : toLinearIndex a < m.arr.length := by rw [m.hlen]; exact ha
    exact List.getElem?_set_self hlt
  · intro i hia hib
    rw [List.getElem?_set_ne (fun hEq => hib hEq.symm),
      List.getElem?_set_ne (fun hEq => hia hEq.symm)]

theorem move_to_some (m : ElementMatrix) (a b : Coordinate)
    (ha : a.in_bounds = true) (hb : b.in_bounds = true) :
    ∃ m2, m.move_to a b = some m2 := by
  unfold ElementMatrix.move_to
  rw [if_pos hb]
  rcases m.new_arr.swap_spec a b (toLinearIndex_lt a ha) (toLinearIndex_lt b hb) with
    ⟨va, vb, B, _, _, hswap, _⟩
  exact ⟨{ m with new_arr := B }, by rw [hswap]; rfl⟩

theorem choose_some {α : Type} (l : List α) (r : Nat) (h : l ≠ []) :
    ∃ d, choose l r = some d := by
  unfold choose
  have hlen : 0 < l.length := List.length_pos.2 h
  have hlt : r % l.length < l.length := Nat.mod_lt _ hlen
  exact ⟨l[r % l.length], List.getElem?_eq_getElem hlt⟩

theorem attempt_some_aux (rng : Nat → Nat) (a : Coordinate) (ha : a.in_bounds = true) :
    ∀ (moves : List Move), (∀ mv ∈ moves, mv.directions ≠ []) →
      ∀ (m : ElementMatrix) (k : Nat), ∃ r, m.attempt_directions rng k a moves = some r := by
  intro moves
  induction moves with
  | nil => exact fun _ m k => ⟨(m, k), rfl⟩
  | cons mv rest ih =>
    intro hd m k
    rcases choose_some mv.directions (rng k) (hd mv (by simp)) with ⟨d, hch⟩
    rcases get_from_new_total m (a.addNeg d) with ⟨v, hg⟩
    have hrest : ∀ mv2 ∈ rest, mv2.directions ≠ [] := fun mv2 h2 => hd mv2 (by simp [h2])
    show ∃ r, m.attempt_directions rng k a (mv :: rest) = some r
    rw [ElementMatrix.attempt_directions]
    match v, hg with
    | none, hg =>
      simp only [hch, hg]
      exact ih hrest m (k + 1)
    | some (some new_element), hg =>
      simp only [hch, hg]
      rcases get_from_new_inner m (a.addNeg d) (some new_element) hg with ⟨hbnd, _⟩
      by_cases hfl : mv.flavors.contains new_element.flavor = true
      · rw [if_pos hfl]
        rcases move_to_some m a (a.addNeg d) ha hbnd with ⟨m2, hmv⟩
        exact ⟨(m2, k + 1), by rw [hmv]; rfl⟩
      · rw [if_neg hfl]
        exact ih hrest m (k + 1)
    | some none, hg =>
      simp only [hch, hg]
      rcases get_from_new_inner m (a.addNeg d) none hg with ⟨hbnd, _⟩
      by_cases hfl : mv.flavors.contains ElementType.EMPTY = true
      · rw [if_pos hfl]
        rcases move_to_some m a (a.addNeg d) ha hbnd with ⟨m2, hmv⟩
        exact ⟨(m2, k + 1), by rw [hmv]; rfl⟩
      · rw [if_neg hfl]
        exact ih hrest m (k + 1)

theorem moveset_dirs_ne_nil (f : ElementType) (moves : List Move)
    (h : element_type_to_moveset f = some moves) : ∀ mv ∈ moves, mv.directions ≠ [] := by
  cases f <;> simp only [element_type_to_moveset, Option.some.injEq] at h
  · exact absurd h (by simp)
  · subst h; intro mv hmv; simp at hmv
  · subst h; decide
  · subst h; decide

theorem usizeOfI64_wrap_neg (s : Int) (h1 : -4 ≤ s) (h2 : s < 0) :
    usizeOfI64 (wrapI64 s) = (USIZE - (-s).toNat : Nat) := by
  unfold usizeOfI64 wrapI64
  rw [USIZE_eq]
  omega

/-- C10: evaluating a cell's move rules for any real moveset never hits
an out-of-bounds array access (no `none`/panic outcome): every
working-grid read and swap is guarded by `in_bounds`, and a coordinate
offset whose signed result is negative wraps to a huge `usize` that
always fails `in_bounds`. -/
theorem attempt_directions_no_oob (m : ElementMatrix) (rng : Nat → Nat) (k : Nat)
    (a : Coordinate) (f : ElementType) (moves : List Move)
    (ha : a.in_bounds = true) (hf : element_type_to_moveset f = some moves) :
    (∃ r, m.attempt_directions rng k a moves = some r) ∧
      (∀ o : NegCoordinate, o.x.natAbs ≤ 2 → o.y.natAbs ≤ 2 →
        ((a.x : Int) + o.x < 0 ∨ (a.y : Int) + o.y < 0) →
        (a.addNeg o).in_bounds = false) := by
  constructor
  · exact attempt_some_aux rng a ha moves (moveset_dirs_ne_nil f moves hf) m k
  · intro o hx hy hneg
    rcases (in_bounds_iff a).1 ha with ⟨hax, hay⟩
    rw [ARR_WIDTH_eq] at hax
    rw [ARR_HEIGHT_eq] at hay
    have hix : i64OfUsize a.x = (a.x : Int) := by
      unfold i64OfUsize
      rw [if_pos (by omega)]
    have hiy : i64OfUsize a.y = (a.y : Int) := by
      unfold i64OfUsize
      rw [if_pos (by omega)]
    rw [Bool.eq_false_iff]
    intro hin
    rcases (in_bounds_iff _).1 hin with ⟨h1, h2⟩
    unfold Coordinate.addNeg at h1 h2
    simp only [hix, hiy] at h1 h2
    rw [ARR_WIDTH_eq] at h1
    rw [ARR_HEIGHT_eq] at h2
    rcases hneg with hneg | hneg
    · rw [usizeOfI64_wrap_neg _ (by omega) hneg] at h1
      rw [USIZE_eq] at h1
      omega
    · rw [usizeOfI64_wrap_neg _ (by omega) hneg] at h2
      rw [USIZE_eq] at h2
      omega

/-- The Sand moveset literal, for concrete instantiations. -/
def sandMoves : List Move :=
  [⟨[ElementType.EMPTY, ElementType.Water], [⟨0, 2⟩]⟩,
   ⟨[ElementType.EMPTY, ElementType.Water], [⟨0, 1⟩]⟩,
   ⟨[ElementType.EMPTY, ElementType.Water], [⟨1, 1⟩, ⟨-1, 1⟩]⟩]

theorem attempt_directions_no_oob_witness :
    (Coordinate.mk 1 1).in_bounds = true ∧
      element_type_to_moveset ElementType.Sand = some sandMoves ∧
      ((∃ r, ElementMatrix.new.attempt_directions (fun _ => 0) 0 ⟨1, 1⟩ sandMoves = some r) ∧
        (∀ o : NegCoordinate, o.x.natAbs ≤ 2 → o.y.natAbs ≤ 2 →
          (((1 : Nat) : Int) + o.x < 0 ∨ ((1 : Nat) : Int) + o.y < 0) →
          ((Coordinate.mk 1 1).addNeg o).in_bounds = false)) :=
  ⟨by decide, rfl,
    attempt_directions_no_oob ElementMatrix.new (fun _ => 0) 0 ⟨1, 1⟩ ElementType.Sand
      sandMoves (by decide) rfl⟩

/-- Destination check of one move rule, following the spec's wording:
the rule's chosen destination must be in bounds (an out-of-bounds
destination fails the rule), and the destination's working-grid
occupant - or the EMPTY marker for a vacant cell - must lie in the
rule's acceptable-occupant set. -/
def destinationCheck (m : ElementMatrix) (a : Coordinate) (mv : Move)
    (d : NegCoordinate) : Bool :=
  match m.get_from_new (a.addNeg d) with
  | some (some (some e)) => mv.flavors.contains e.flavor
  | some (some none) => mv.flavors.contains ElementType.EMPTY
  | _ => false

/-- The direction the random oracle picks for rule `mv` at counter `k`. -/
def chosenDir (rng : Nat → Nat) (k : Nat) (mv : Move) : NegCoordinate :=
  (mv.directions[rng k % mv.directions.length]?).getD ⟨0, 0⟩

/-- Modelled from the spec: the rules are a priority list; the first
rule (in order) whose destination check succeeds causes exactly one
swap of the source with that destination, and later rules are never
consulted; if no rule succeeds, the grid is left unchanged. -/
def attemptDirectionsSpec (m : ElementMatrix) (rng : Nat → Nat) (k : Nat) (a : Coordinate)
    (moves : List Move) : Option ElementMatrix :=
  match (moves.enumFrom k).find?
      (fun p => destinationCheck m a p.2 (chosenDir rng p.1 p.2)) with
  | some (i, mv) => m.move_to a (a.addNeg (chosenDir rng i mv))
  | none => some m

theorem choose_eq_chosenDir (mv : Move) (rng : Nat → Nat) (k : Nat)
    (h : mv.directions ≠ []) :
    choose mv.directions (rng k) = some (chosenDir rng k mv) := by
  unfold choose chosenDir
  have hlt : rng k % mv.directions.length < mv.directions.length :=
    Nat.mod_lt _ (List.length_pos.2 h)
  rw [List.getElem?_eq_getElem hlt]
  rfl

theorem attemptSpec_cons_neg (m : ElementMatrix) (rng : Nat → Nat) (k : Nat) (a : Coordinate)
    (mv : Move) (rest : List Move)
    (h : destinationCheck m a mv (chosenDir rng k mv) = false) :
    attemptDirectionsSpec m rng k a (mv :: rest) = attemptDirectionsSpec m rng (k + 1) a rest := by
  unfold attemptDirectionsSpec
  rw [List.enumFrom_cons, List.find?_cons_of_neg _ (by simp [h])]

theorem attemptSpec_cons_pos (m : ElementMatrix) (rng : Nat → Nat) (k : Nat) (a : Coordinate)
    (mv : Move) (rest : List Move)
    (h : destinationCheck m a mv (chosenDir rng k mv) = true) :
    attemptDirectionsSpec m rng k a (mv :: rest) =
      m.move_to a (a.addNeg (chosenDir rng k mv)) := by
  unfold attemptDirectionsSpec
  rw [List.enumFrom_cons, List.find?_cons_of_pos _ (by simpa using h)]

/-- C8: the tick engine's rule-evaluation loop refines the spec's
priority-list description: rules are tried in order, a rule whose
chosen destination fails the bounds/occupancy check is skipped, the
first success performs exactly one swap and stops, and without any
success the grid is unchanged. -/
theorem attempt_directions_priority (m : ElementMatrix) (rng : Nat → Nat) (a : Coordinate) :
    ∀ (moves : List Move), (∀ mv ∈ moves, mv.directions ≠ []) → ∀ (k : Nat),
      (m.attempt_directions rng k a moves).map Prod.fst =
        attemptDirectionsSpec m rng k a moves := by
  intro moves
  induction moves with
  | nil =>
    intro _ k
    simp [ElementMatrix.attempt_directions, attemptDirectionsSpec]
  | cons mv rest ih =>
    intro hd k
    have hch : choose mv.directions (rng k) = some (chosenDir rng k mv) :=
      choose_eq_chosenDir mv rng k (hd mv (by simp))
    have hrest : ∀ mv2 ∈ rest, mv2.directions ≠ [] := fun mv2 h2 => hd mv2 (by simp [h2])
    rcases get_from_new_total m (a.addNeg (chosenDir rng k mv)) with ⟨v, hg⟩
    rw [ElementMatrix.attempt_directions]
    match v, hg with
    | none, hg =>
      have hcheck : destinationCheck m a mv (chosenDir rng k mv) = false := by
        simp only [destinationCheck, hg]
      rw [attemptSpec_cons_neg m rng k a mv rest hcheck]
      simp only [hch, hg]
      exact ih hrest (k + 1)
    | some (some e), hg =>
      have hcheck : destinationCheck m a mv (chosenDir rng k mv) =
          mv.flavors.contains e.flavor := by
        simp only [destinationCheck, hg]
      by_cases hfl : mv.flavors.contains e.flavor = true
      · rw [attemptSpec_cons_pos m rng k a mv rest (hcheck.trans hfl)]
        simp only [hch, hg]
        rw [if_pos hfl]
        cases m.move_to a (a.addNeg (chosenDir rng k mv)) <;> rfl
      · rw [attemptSpec_cons_neg m rng k a mv rest
          (by rw [hcheck]; exact Bool.eq_false_iff.2 hfl)]
        simp only [hch, hg]
        rw [if_neg hfl]
        exact ih hrest (k + 1)
    | some none, hg =>
      have hcheck : destinationCheck m a mv (chosenDir rng k mv) =
          mv.flavors.contains ElementType.EMPTY := by
        simp only [destinationCheck, hg]
      by_cases hfl : mv.flavors.contains ElementType.EMPTY = true
      · rw [attemptSpec_cons_pos m rng k a mv rest (hcheck.trans hfl)]
        simp only [hch, hg]
        rw [if_pos hfl]
        cases m.move_to a (a.addNeg (chosenDir rng k mv)) <;> rfl
      · rw [attemptSpec_cons_neg m rng k a mv rest
          (by rw [hcheck]; exact Bool.eq_false_iff.2 hfl)]
        simp only [hch, hg]
        rw [if_neg hfl]
        exact ih hrest (k + 1)

theorem attempt_directions_priority_witness :
    (∀ mv ∈ sandMoves, mv.directions ≠ []) ∧
      (ElementMatrix.new.attempt_directions (fun _ => 0) 0 ⟨1, 1⟩ sandMoves).map Prod.fst =
        attemptDirectionsSpec ElementMatrix.new (fun _ => 0) 0 ⟨1, 1⟩ sandMoves :=
  ⟨by decide,
    attempt_directions_priority ElementMatrix.new (fun _ => 0) ⟨1, 1⟩ sandMoves (by decide) 0⟩

theorem countP_set_add {α : Type} (p : α → Bool) :
    ∀ (l : List α) (i : Nat) (v w : α), l[i]? = some w →
      (l.set i v).countP p + (if p w then 1 else 0) = l.countP p + (if p v then 1 else 0) := by
  intro l
  induction l with
  | nil => intro i v w h; simp at h
  | cons x xs ih =>
    intro i v w h
    cases i with
    | zero =>
      simp only [List.getElem?_cons_zero, Option.some.injEq] at h
      subst h
      simp only [List.set_cons_zero, List.countP_cons]
      omega
    | succ n =>
      simp only [List.getElem?_cons_succ] at h
      simp only [List.set_cons_succ, List.countP_cons]
      have := ih n v w h
      omega

theorem countFlavor_swap (m : Matrix) (a b : Coordinate)
    (ha : toLinearIndex a < WH) (hb : toLinearIndex b < WH) (B : Matrix)
    (h : m.swap a b = some B) (t : ElementType) : B.countFlavor t = m.countFlavor t := by
  rcases m.cell_defined (toLinearIndex a) ha with ⟨va, hva⟩
  rcases m.cell_defined (toLinearIndex b) hb with ⟨vb, hvb⟩
  unfold Matrix.swap at h
  rw [hva, hvb] at h
  simp only [Option.some.injEq] at h
  subst h
  unfold Matrix.countFlavor
  have hl1 : (m.arr.set (toLinearIndex a) vb)[toLinearIndex b]? = some vb := by
    by_cases hEq : toLinearIndex a = toLinearIndex b
    · rw [← hEq]
      exact List.getElem?_set_self (by rw [m.hlen]; exact ha)
    · rw [List.getElem?_set_ne hEq]
      exact hvb
  have e1 := countP_set_add
    (fun cell => match cell with | some e => e.flavor == t | none => false)
    (m.arr.set (toLinearIndex a) vb) (toLinearIndex b) va vb hl1
  have e2 := countP_set_add
    (fun cell => match cell with | some e => e.flavor == t | none => false)
    m.arr (toLinearIndex a) vb va hva
  exact Nat.add_right_cancel (e1.trans e2)

theorem move_preserves (m : ElementMatrix) (a b : Coordinate) (A : Matrix)
    (harr : m.arr = A)
    (ha : a.in_bounds = true) (hb : b.in_bounds = true)
    (hAa : ¬ stoneOpt A.arr[toLinearIndex a]?)
    (hSA : StoneAgree A m.new_arr)
    (hbNot : ¬ stoneOpt m.new_arr.arr[toLinearIndex b]?) :
    ∃ m2, m.move_to a b = some m2 ∧ m2.arr = A ∧ StoneAgree A m2.new_arr ∧
      ∀ t, m2.new_arr.countFlavor t = m.new_arr.countFlavor t := by
  have hla := toLinearIndex_lt a ha
  have hlb := toLinearIndex_lt b hb
  rcases m.new_arr.swap_spec a b hla hlb with
    ⟨va, vb, B, hva, hvb, hswap, hBb, hEqab, hBa, hBother⟩
  have hvaNot : ¬ stoneOpt (some va : Option (Option Element)) := by
    intro hstone
    have h1 : stoneOpt m.new_arr.arr[toLinearIndex a]? := by rw [hva]; exact hstone
    have h2 := hSA (toLinearIndex a) (Or.inr h1)
    rw [h2] at h1
    exact hAa h1
  have hvbNot : ¬ stoneOpt (some vb : Option (Option Element)) := by
    intro hstone
    exact hbNot (by rw [hvb]; exact hstone)
  refine ⟨{ m with new_arr := B }, ?_, harr, ?_, ?_⟩
  · unfold ElementMatrix.move_to
    rw [if_pos hb, hswap]
    rfl
  · intro i hior
    by_cases hib : i = toLinearIndex b
    · subst hib
      exfalso
      rcases hior with hA | hB
      · have h2 := hSA (toLinearIndex b) (Or.inl hA)
        rw [h2] at hvb
        exact hvbNot (by rw [← hvb]; exact hA)
      · rw [hBb] at hB
        exact hvaNot hB
    · by_cases hia : i = toLinearIndex a
      · subst hia
        exfalso
        rcases hior with hA | hB
        · exact hAa hA
        · rw [hBa hib] at hB
          exact hvbNot hB
      · rw [hBother i hia hib]
        rcases hior with hA | hB
        · exact hSA i (Or.inl hA)
        · rw [hBother i hia hib] at hB
          exact hSA i (Or.inr hB)
  · intro t
    exact countFlavor_swap m.new_arr a b hla hlb B hswap t

theorem attempt_preserves (rng : Nat → Nat) (a : Coordinate) (A : Matrix)
    (ha : a.in_bounds = true) (hAa : ¬ stoneOpt A.arr[toLinearIndex a]?) :
    ∀ (moves : List Move),
      (∀ mv ∈ moves, mv.directions ≠ []) →
      (∀ mv ∈ moves, mv.flavors.contains ElementType.Stone = false) →
      ∀ (m : ElementMatrix) (k : Nat), m.arr = A → StoneAgree A m.new_arr →
      ∃ m2 k2, m.attempt_directions rng k a moves = some (m2, k2) ∧ m2.arr = A ∧
        StoneAgree A m2.new_arr ∧
        ∀ t, m2.new_arr.countFlavor t = m.new_arr.countFlavor t := by
  intro moves
  induction moves with
  | nil =>
    intro _ _ m k harr hSA
    exact ⟨m, k, rfl, harr, hSA, fun t => rfl⟩
  | cons mv rest ih =>
    intro hd hns m k harr hSA
    have hd' : ∀ mv2 ∈ rest, mv2.directions ≠ [] := fun mv2 h2 => hd mv2 (by simp [h2])
    have hns' : ∀ mv2 ∈ rest, mv2.flavors.contains ElementType.Stone = false :=
      fun mv2 h2 => hns mv2 (by simp [h2])
    rcases choose_some mv.directions (rng k) (hd mv (by simp)) with ⟨d, hch⟩
    rcases get_from_new_total m (a.addNeg d) with ⟨v, hg⟩
    rw [ElementMatrix.attempt_directions]
    match v, hg with
    | none, hg =>
      simp only [hch, hg]
      exact ih hd' hns' m (k + 1) harr hSA
    | some (some e), hg =>
      simp only [hch, hg]
      rcases get_from_new_inner m (a.addNeg d) (some e) hg with ⟨hbnd, hcell⟩
      by_cases hfl : mv.flavors.contains e.flavor = true
      · rw [if_pos hfl]
        have heNot : ¬ stoneOpt m.new_arr.arr[toLinearIndex (a.addNeg d)]? := by
          intro hstone
          rcases hstone with ⟨e2, he2, hfl2⟩
          rw [hcell] at he2
          have he : e = e2 := Option.some.inj (Option.some.inj he2)
          rw [← he] at hfl2
          rw [hfl2] at hfl
          rw [hns mv (by simp)] at hfl
          exact Bool.noConfusion hfl
        rcases move_preserves m a (a.addNeg d) A harr ha hbnd hAa hSA heNot with
          ⟨m2, hmv, harr2, hSA2, hcnt2⟩
        exact ⟨m2, k + 1, by rw [hmv]; rfl, harr2, hSA2, hcnt2⟩
      · rw [if_neg hfl]
        exact ih hd' hns' m (k + 1) harr hSA
    | some none, hg =>
      simp only [hch, hg]
      rcases get_from_new_inner m (a.addNeg d) none hg with ⟨hbnd, hcell⟩
      by_cases hfl : mv.flavors.contains ElementType.EMPTY = true
      · rw [if_pos hfl]
        have heNot : ¬ stoneOpt m.new_arr.arr[toLinearIndex (a.addNeg d)]? := by
          intro hstone
          rcases hstone with ⟨e2, he2, _⟩
          rw [hcell] at he2
          exact Option.noConfusion (Option.some.inj he2)
        rcases move_preserves m a (a.addNeg d) A harr ha hbnd hAa hSA heNot with
          ⟨m2, hmv, harr2, hSA2, hcnt2⟩
        exact ⟨m2, k + 1, by rw [hmv]; rfl, harr2, hSA2, hcnt2⟩
      · rw [if_neg hfl]
        exact ih hd' hns' m (k + 1) harr hSA

/-- The Water moveset literal, for concrete instantiations. -/
def waterMoves : List Move :=
  [⟨[ElementType.EMPTY], [⟨0, 1⟩]⟩,
   ⟨[ElementType.EMPTY], [⟨-1, 1⟩, ⟨1, 1⟩]⟩,
   ⟨[ElementType.EMPTY], [⟨-2, 0⟩, ⟨2, 0⟩]⟩,
   ⟨[ElementType.EMPTY], [⟨-1, 0⟩, ⟨1, 0⟩]⟩,
   ⟨[ElementType.Sand], [⟨0, -1⟩]⟩]

theorem step_preserves (rng : Nat → Nat) (a : Coordinate) (A : Matrix)
    (ha : a.in_bounds = true) (hNoE : NoEmptyEl A) :
    ∀ (m : ElementMatrix) (k : Nat), m.arr = A → StoneAgree A m.new_arr →
    ∃ m2 k2, m.step rng k a = some (m2, k2) ∧ m2.arr = A ∧ StoneAgree A m2.new_arr ∧
      ∀ t, m2.new_arr.countFlavor t = m.new_arr.countFlavor t := by
  intro m k harr hSA
  rcases A.cell_defined (toLinearIndex a) (toLinearIndex_lt a ha) with ⟨cell, hcell⟩
  match cell, hcell with
  | none, hcell =>
    have hstep : m.step rng k a = some (m, k) := by
      unfold ElementMatrix.step
      rw [harr]
      simp only [hcell]
    exact ⟨m, k, hstep, harr, hSA, fun t => rfl⟩
  | some element, hcell =>
    have hne : element.flavor ≠ ElementType.EMPTY := hNoE _ _ hcell
    have hAa : element.flavor ≠ ElementType.Stone →
        ¬ stoneOpt A.arr[toLinearIndex a]? := by
      intro hnst hstone
      rcases hstone with ⟨e2, he2, hfl2⟩
      rw [hcell] at he2
      have he : element = e2 := Option.some.inj (Option.some.inj he2)
      rw [← he] at hfl2
      exact hnst hfl2
    cases hfl : element.flavor with
    | EMPTY => exact absurd hfl hne
    | Stone =>
      have hstep : m.step rng k a = some (m, k) := by
        unfold ElementMatrix.step
        rw [harr]
        simp only [hcell, hfl, element_type_to_moveset]
        rw [ElementMatrix.attempt_directions]
      exact ⟨m, k, hstep, harr, hSA, fun t => rfl⟩
    | Sand =>
      have hstep : m.step rng k a = m.attempt_directions rng k a sandMoves := by
        unfold ElementMatrix.step
        rw [harr]
        simp only [hcell, hfl, element_type_to_moveset]
        rfl
      rcases attempt_preserves rng a A ha
          (hAa (by rw [hfl]; exact fun h => ElementType.noConfusion h))
          sandMoves (by decide) (by decide) m k harr hSA with
        ⟨m2, k2, hat, harr2, hSA2, hcnt2⟩
      exact ⟨m2, k2, hstep.trans hat, harr2, hSA2, hcnt2⟩
    | Water =>
      have hstep : m.step rng k a = m.attempt_directions rng k a waterMoves := by
        unfold ElementMatrix.step
        rw [harr]
        simp only [hcell, hfl, element_type_to_moveset]
        rfl
      rcases attempt_preserves rng a A ha
          (hAa (by rw [hfl]; exact fun h => ElementType.noConfusion h))
          waterMoves (by decide) (by decide) m k harr hSA with
        ⟨m2, k2, hat, harr2, hSA2, hcnt2⟩
      exact ⟨m2, k2, hstep.trans hat, harr2, hSA2, hcnt2⟩

theorem fold_preserves (rng : Nat → Nat) (A : Matrix) (hNoE : NoEmptyEl A) :
    ∀ (l : List Coordinate), (∀ a ∈ l, a.in_bounds = true) →
    ∀ (m : ElementMatrix) (k : Nat), m.arr = A → StoneAgree A m.new_arr →
    ∃ m2 k2, l.foldlM (stepFold rng) (m, k) = some (m2, k2) ∧
      m2.arr = A ∧ StoneAgree A m2.new_arr ∧
      ∀ t, m2.new_arr.countFlavor t = m.new_arr.countFlavor t := by
  intro l
  induction l with
  | nil =>
    intro _ m k harr hSA
    exact ⟨m, k, rfl, harr, hSA, fun t => rfl⟩
  | cons c cs ih =>
    intro hb m k harr hSA
    rcases step_preserves rng c A (hb c (by simp)) hNoE m k harr hSA with
      ⟨m1, k1, hstep, harr1, hSA1, hcnt1⟩
    rcases ih (fun a hA => hb a (by simp [hA])) m1 k1 harr1 hSA1 with
      ⟨m2, k2, hfold, harr2, hSA2, hcnt2⟩
    refine ⟨m2, k2, ?_, harr2, hSA2, fun t => (hcnt2 t).trans (hcnt1 t)⟩
    rw [List.foldlM_cons]
    have hsf : stepFold rng (m, k) c = m.step rng k c := rfl
    rw [hsf, hstep]
    exact hfold

theorem coordIterAux_mem (a : Coordinate) :
    ∀ (n : Nat), a ∈ coordIterAux n → ∃ i, 1 ≤ i ∧ i < n ∧ a = fromLinearIndex i := by
  intro n
  induction n with
  | zero => intro h; simp [coordIterAux] at h
  | succ c ih =>
    intro h
    rw [coordIterAux] at h
    by_cases hc : 0 < c
    · rw [if_pos hc] at h
      rcases List.mem_cons.1 h with h1 | h1
      · exact ⟨c, by omega, by omega, h1⟩
      · rcases ih h1 with ⟨i, h2, h3, h4⟩
        exact ⟨i, h2, by omega, h4⟩
    · rw [if_neg hc] at h
      simp at h

theorem coordinateIteratorList_in_bounds (a : Coordinate)
    (h : a ∈ coordinateIteratorList) : a.in_bounds = true := by
  rcases coordIterAux_mem a _ h with ⟨i, h1, h2, h3⟩
  subst h3
  have hn : ARR_HEIGHT * ARR_WIDTH - 2 = 19198 := by norm_num [ARR_HEIGHT, ARR_WIDTH]
  rw [hn] at h2
  rw [in_bounds_iff]
  constructor
  · show i % ARR_WIDTH < ARR_WIDTH
    rw [ARR_WIDTH_eq]
    omega
  · show i / ARR_WIDTH < ARR_HEIGHT
    rw [ARR_WIDTH_eq, ARR_HEIGHT_eq]
    omega

/-- C6: starting a tick with working grid equal to committed grid (the
steady state between ticks, i.e. no intervening paint calls) and no
EMPTY-flavored occupant, the tick completes and leaves the multiset of
particle types present in the committed grid unchanged, for every
random-choice oracle. -/
theorem tick_conserves_flavors (m : ElementMatrix) (rng : Nat → Nat)
    (hEq : m.new_arr = m.arr) (hNoE : NoEmptyEl m.arr) :
    ∃ m2, m.runTick rng = some m2 ∧
      ∀ t, m2.arr.countFlavor t = m.arr.countFlavor t := by
  have hSA : StoneAgree m.arr m.new_arr := by
    rw [hEq]
    intro i h
    rfl
  rcases fold_preserves rng m.arr hNoE coordinateIteratorList
      (fun a ha => coordinateIteratorList_in_bounds a ha) m 0 rfl hSA with
    ⟨m2, k2, hfold, harr2, hSA2, hcnt2⟩
  refine ⟨m2.finish_update, ?_, ?_⟩
  · unfold ElementMatrix.runTick
    rw [hfold]
    rfl
  · intro t
    show m2.new_arr.countFlavor t = m.arr.countFlavor t
    rw [hcnt2 t, hEq]

theorem noEmpty_new : NoEmptyEl Matrix.new := by
  intro i e h
  have hrepl : (Matrix.new).arr[i]? = (List.replicate WH (none : Option Element))[i]? := rfl
  rw [hrepl, List.getElem?_replicate] at h
  by_cases hi : i < WH
  · rw [if_pos hi] at h
    exact Option.noConfusion (Option.some.inj h)
  · rw [if_neg hi] at h
    exact Option.noConfusion h

theorem tick_conserves_flavors_witness :
    ElementMatrix.new.new_arr = ElementMatrix.new.arr ∧
      NoEmptyEl ElementMatrix.new.arr ∧
      ∃ m2, ElementMatrix.new.runTick (fun _ => 0) = some m2 ∧
        ∀ t, m2.arr.countFlavor t = ElementMatrix.new.arr.countFlavor t :=
  ⟨rfl, noEmpty_new, tick_conserves_flavors ElementMatrix.new (fun _ => 0) rfl noEmpty_new⟩

/-- C7: under the same steady-state hypotheses, a Stone occupant of any
cell of the committed grid is still that cell's occupant in the
committed grid after the tick, for every random-choice oracle. -/
theorem stone_fixed_by_tick (m : ElementMatrix) (rng : Nat → Nat) (c : Coordinate)
    (e : Element) (hEq : m.new_arr = m.arr) (hNoE : NoEmptyEl m.arr)
    (hc : m.arr.arr[toLinearIndex c]? = some (some e))
    (hS : e.flavor = ElementType.Stone) :
    ∃ m2, m.runTick rng = some m2 ∧
      m2.arr.arr[toLinearIndex c]? = some (some e) := by
  have hSA : StoneAgree m.arr m.new_arr := by
    rw [hEq]
    intro i h
    rfl
  rcases fold_preserves rng m.arr hNoE coordinateIteratorList
      (fun a ha => coordinateIteratorList_in_bounds a ha) m 0 rfl hSA with
    ⟨m2, k2, hfold, harr2, hSA2, hcnt2⟩
  refine ⟨m2.finish_update, ?_, ?_⟩
  · unfold ElementMatrix.runTick
    rw [hfold]
    rfl
  · show m2.new_arr.arr[toLinearIndex c]? = some (some e)
    have hstone : stoneOpt m.arr.arr[toLinearIndex c]? := ⟨e, hc, hS⟩
    have h2 := hSA2 (toLinearIndex c) (Or.inl hstone)
    rw [h2]
    exact hc

/-- The single stone element used in the stone-immobility witness. -/
def stoneEl : Element := ⟨⟨1, 1⟩, ElementType.Stone⟩

/-- A committed grid holding exactly one Stone, at cell (1,1) (linear
index 161). -/
def stoneMatrix : Matrix :=
  ⟨(List.replicate WH none).set 161 (some stoneEl), by simp⟩

/-- Steady state whose committed and working grids both hold that one
Stone. -/
def stoneEM : ElementMatrix := ⟨stoneMatrix, stoneMatrix⟩

theorem noEmpty_stoneMatrix : NoEmptyEl stoneMatrix := by
  intro i e h
  have hrepl : stoneMatrix.arr[i]? =
      ((List.replicate WH (none : Option Element)).set 161 (some stoneEl))[i]? := rfl
  rw [hrepl] at h
  by_cases hi : i = 161
  · subst hi
    rw [List.getElem?_set_self (by rw [List.length_replicate]; norm_num [WH, ARR_WIDTH, ARR_HEIGHT])] at h
    have he : stoneEl = e := Option.some.inj (Option.some.inj h)
    rw [← he]
    decide
  · rw [List.getElem?_set_ne (fun hEq => hi hEq.symm), List.getElem?_replicate] at h
    by_cases h2 : i < WH
    · rw [if_pos h2] at h
      exact Option.noConfusion (Option.some.inj h)
    · rw [if_neg h2] at h
      exact Option.noConfusion h

theorem stoneMatrix_at :
    stoneMatrix.arr[toLinearIndex ⟨1, 1⟩]? = some (some stoneEl) := by
  have h161 : toLinearIndex ⟨1, 1⟩ = 161 := by decide
  rw [h161]
  exact List.getElem?_set_self (by rw [List.length_replicate]; norm_num [WH, ARR_WIDTH, ARR_HEIGHT])

theorem stone_fixed_by_tick_witness :
    stoneEM.new_arr = stoneEM.arr ∧ NoEmptyEl stoneEM.arr ∧
      stoneEM.arr.arr[toLinearIndex ⟨1, 1⟩]? = some (some stoneEl) ∧
      stoneEl.flavor = ElementType.Stone ∧
      ∃ m2, stoneEM.runTick (fun _ => 0) = some m2 ∧
        m2.arr.arr[toLinearIndex ⟨1, 1⟩]? = some (some stoneEl) :=
  ⟨rfl, noEmpty_stoneMatrix, stoneMatrix_at, rfl,
    stone_fixed_by_tick stoneEM (fun _ => 0) ⟨1, 1⟩ stoneEl rfl
      noEmpty_stoneMatrix stoneMatrix_at rfl⟩

end SandGame
